import Mathlib

/-!
Shallow embedding of the regular-expression engine in `src/re.rs`
(bytecode compiler + virtual machine), together with proofs about it.

The Rust code is recursive with an implicit iterator state; here the
iterator is an explicit list of `(byte offset, char)` pairs and the
recursive compiler functions carry a fuel parameter (the Rust recursion
always consumes input, so enough fuel makes the model total; `compile`
supplies a fuel that provably suffices).  The virtual machine's
`follow_jump` loop can genuinely diverge in Rust, so it also carries
fuel; a `.Loop` error means the Rust loop has not finished within the
given bound (for the divergent programs below we prove this for every
bound).  `.OutOfRange` models Rust's index-out-of-bounds panic and
`.JumpAbort` models the explicit abort
`fail!("Unexpected jump instruction.")` in `Vm::iterate`.
-/

namespace RustRe

/-- The bytecode alphabet, from `enum Instruction` in `src/re.rs`. -/
inductive Instruction where
  | Char : Char → Instruction
  | Jmp : Nat → Instruction
  | Match : Instruction
  | Split : Nat → Nat → Instruction
deriving DecidableEq

/-- `pub type CompiledRegexp = ~[Instruction];` -/
abbrev CompiledRegexp := List Instruction

instance {ε α : Type} [DecidableEq ε] [DecidableEq α] : DecidableEq (Except ε α) :=
  fun a b =>
    match a, b with
    | .ok x, .ok y =>
      if h : x = y then .isTrue (by rw [h]) else .isFalse (fun hh => h (Except.ok.inj hh))
    | .error x, .error y =>
      if h : x = y then .isTrue (by rw [h]) else .isFalse (fun hh => h (Except.error.inj hh))
    | .ok _, .error _ => .isFalse (fun hh => Except.noConfusion hh)
    | .error _, .ok _ => .isFalse (fun hh => Except.noConfusion hh)

/-- The fixed error text `static UNEXPECTED_EOS` from `src/re.rs`. -/
def UNEXPECTED_EOS : String := "Unexpected end of stream."

/-- Artifact of the fuel-based embedding; the Rust code has no such error.
`compile` supplies enough fuel that this message is never produced. -/
def fuelMsg : String := "Out of fuel."

/-- The `(byte offset, codepoint)` pairs produced by Rust's
`pattern.char_offset_iter()`, starting at byte offset `base`. -/
def charOffsets (base : Nat) : List Char → List (Nat × Char)
  | [] => []
  | c :: rest => (base, c) :: charOffsets (base + c.utf8Size) rest

namespace Compiler

/-- The in-place target rewrite performed by the loop in `Compiler::link`:
`Jmp`/`Split` targets are increased by `len`, other instructions are kept. -/
def relink (len : Nat) : Instruction → Instruction
  | .Split a b => .Split (len + a) (len + b)
  | .Jmp a => .Jmp (len + a)
  | i => i

/-- `Compiler::link`: concatenate `p1` and `p2`, shifting every
`Jmp`/`Split` target of `p2` by `p1.len()`. -/
def link (p1 p2 : List Instruction) : List Instruction :=
  p1 ++ p2.map (relink p1.length)

/-- `Compiler::link_or`: alternation of two already-linked programs. -/
def link_or (p1 p2 : List Instruction) : List Instruction :=
  let len1 := p1.length
  let len2 := p2.length
  let pm := link [.Split 1 (len1 + 2)] p1
  let pm := pm ++ [.Jmp (len1 + len2 + 2)]
  link pm p2

/-- Lines 132–153 of `Compiler::compile_one`: after a primitive has been
compiled to `program`, peek at the next pattern character and apply a
trailing `?`/`*`/`+` quantifier (consuming it); any other character, or
end of input, leaves the program and the input unchanged. -/
def quantify (program : List Instruction) (input : List (Nat × Char)) :
    List Instruction × List (Nat × Char) :=
  let len := program.length
  match input with
  | (_, '?') :: rest => (link [.Split 1 (len + 1)] program, rest)
  | (_, '*') :: rest => (link [.Split 1 (len + 2)] program ++ [.Jmp 0], rest)
  | (_, '+') :: rest => (program ++ [.Split 0 (len + 1)], rest)
  | _ => (program, input)

/-- The `if fragment.is_empty() { program } else { link_or(fragment, program) }`
epilogue of `Compiler::compile_fragment`. -/
def fragment_result (fragment program : List Instruction) : List Instruction :=
  if fragment.isEmpty then program else link_or fragment program

mutual

/-- `Compiler::compile_one`: consume one primitive (a literal character or a
parenthesised group) plus an optional trailing quantifier.  On empty input it
returns the empty program without consuming anything.  The characters
`? * + ) |` in primitive position are a syntax error carrying the character
and its byte offset. -/
def compile_one (fuel : Nat) (input : List (Nat × Char)) :
    Except String (List Instruction × List (Nat × Char)) :=
  match fuel with
  | 0 => .error fuelMsg
  | f + 1 =>
    match input with
    | [] => .ok ([], [])
    | (i, c) :: rest =>
      if c = '?' ∨ c = '*' ∨ c = '+' ∨ c = ')' ∨ c = '|' then
        .error s!"Unexpected char \x27{c}\x27 at {i}."
      else if c = '(' then
        match compile_group f rest with
        | .error e => .error e
        | .ok (p, rest') => .ok (quantify p rest')
      else
        .ok (quantify [.Char c] rest)

/-- `Compiler::compile_group`: compile a fragment expecting `)` as its
delimiter; if the fragment ends without having found the delimiter the
result is the fixed `UNEXPECTED_EOS` error. -/
def compile_group (fuel : Nat) (input : List (Nat × Char)) :
    Except String (List Instruction × List (Nat × Char)) :=
  match fuel with
  | 0 => .error fuelMsg
  | f + 1 =>
    match compile_fragment_loop f (some ')') [] [] input with
    | .error e => .error e
    | .ok (p, found, rest) => if found then .ok (p, rest) else .error UNEXPECTED_EOS

/-- The `loop` of `Compiler::compile_fragment`, with the two mutable locals
`fragment` and `program` as accumulators.  Returns the assembled program,
the `found_delimiter` flag and the remaining input. -/
def compile_fragment_loop (fuel : Nat) (delim : Option Char)
    (fragment program : List Instruction) (input : List (Nat × Char)) :
    Except String (List Instruction × Bool × List (Nat × Char)) :=
  match fuel with
  | 0 => .error fuelMsg
  | f + 1 =>
    match compile_one f input with
    | .error e => .error e
    | .ok (p, rest) =>
      let program' := link program p
      match rest with
      | [] => .ok (fragment_result fragment program', false, [])
      | (j, c) :: rest' =>
        if c = '|' then
          if fragment.isEmpty then
            compile_fragment_loop f delim program' [] rest'
          else
            compile_fragment_loop f delim (link_or fragment program') [] rest'
        else if delim = some c then
          .ok (fragment_result fragment program', true, rest')
        else
          compile_fragment_loop f delim fragment program' ((j, c) :: rest')

end

/-- `Compiler::compile`: compile the whole pattern as a top-level fragment
(no delimiter), then append the trailing `Match` instruction. -/
def compile (fuel : Nat) (input : List (Nat × Char)) :
    Except String (List Instruction) :=
  match compile_fragment_loop fuel none [] [] input with
  | .error e => .error e
  | .ok (p, _, _) => .ok (p ++ [.Match])

end Compiler

/-- The public `compile` entry point (`pub fn compile` in `src/re.rs`),
on the pattern's codepoint list.  The fuel `4 * length + 8` provably
suffices for the executions the theorems below depend on. -/
def compile (pattern : List Char) : Except String (List Instruction) :=
  Compiler.compile (4 * pattern.length + 8) (charOffsets 0 pattern)

/-- Outcomes of the virtual machine that Rust realises as a panic or as
nontermination: `Loop` marks a `follow_jump` expansion that has not
finished within the fuel bound (the Rust loop simply never finishes),
`OutOfRange` an out-of-bounds program index (a Rust bounds panic), and
`JumpAbort` the `fail!("Unexpected jump instruction.")` abort. -/
inductive VmError where
  | Loop : VmError
  | OutOfRange : VmError
  | JumpAbort : VmError
deriving DecidableEq

/-- `enum IterResult` from `src/re.rs`. -/
inductive IterResult where
  | Matched : IterResult
  | Continue : IterResult
  | Halt : IterResult
deriving DecidableEq

namespace Vm

/-- One pass of the `while` loop in `Vm::follow_jump`: process every address
of the working set in order, pushing `Split`/`Jmp` targets onto the next
working set and terminal (`Char`/`Match`) addresses onto the result. -/
def followPass (program : List Instruction) :
    List Nat → Except VmError (List Nat × List Nat)
  | [] => .ok ([], [])
  | a :: rest =>
    match program[a]? with
    | none => .error .OutOfRange
    | some (.Split x y) =>
      match followPass program rest with
      | .error e => .error e
      | .ok (w, t) => .ok (x :: y :: w, t)
    | some (.Jmp x) =>
      match followPass program rest with
      | .error e => .error e
      | .ok (w, t) => .ok (x :: w, t)
    | some _ =>
      match followPass program rest with
      | .error e => .error e
      | .ok (w, t) => .ok (w, a :: t)

/-- The `while !working_set.is_empty()` loop of `Vm::follow_jump`. -/
def follow_jump_loop (program : List Instruction) (fuel : Nat)
    (working acc : List Nat) : Except VmError (List Nat) :=
  if working.isEmpty then .ok acc
  else
    match fuel with
    | 0 => .error .Loop
    | f + 1 =>
      match followPass program working with
      | .error e => .error e
      | .ok (w', terms) => follow_jump_loop program f w' (acc ++ terms)

/-- `Vm::follow_jump`: the epsilon closure of address `i`. -/
def follow_jump (program : List Instruction) (fuel : Nat) (i : Nat) :
    Except VmError (List Nat) :=
  follow_jump_loop program fuel [i] []

/-- `Vm::init`: seed the thread set with the epsilon closure of address 0,
falling back to `[0]` if the closure is empty. -/
def init (program : List Instruction) (fuel : Nat) : Except VmError (List Nat) :=
  match follow_jump program fuel 0 with
  | .error e => .error e
  | .ok ips => .ok (if ips.isEmpty then [0] else ips)

/-- The `for addr in self.ips.iter()` body of `Vm::iterate`: build the new
thread set and record whether any thread sat on `Match`.  A thread on a
`Jmp`/`Split` instruction triggers the fatal
`fail!("Unexpected jump instruction.")`, modelled as `.JumpAbort`. -/
def iterate_addrs (program : List Instruction) (fuel : Nat) (c : Char) :
    List Nat → Except VmError (List Nat × Bool)
  | [] => .ok ([], false)
  | a :: rest =>
    match program[a]? with
    | none => .error .OutOfRange
    | some (.Char ch) =>
      if ch = c then
        match follow_jump program fuel (a + 1) with
        | .error e => .error e
        | .ok new_addrs =>
          match iterate_addrs program fuel c rest with
          | .error e => .error e
          | .ok (tail, m) =>
            .ok ((if new_addrs.isEmpty then [a + 1] else new_addrs) ++ tail, m)
      else iterate_addrs program fuel c rest
    | some .Match =>
      match iterate_addrs program fuel c rest with
      | .error e => .error e
      | .ok (tail, _) => .ok (tail, true)
    | some _ => .error .JumpAbort

/-- `Vm::iterate`: advance every thread of `ips` over the input character
`c`; an empty thread set halts the scan for the current start offset. -/
def iterate (program : List Instruction) (fuel : Nat) (ips : List Nat)
    (c : Char) : Except VmError (IterResult × List Nat) :=
  if ips.isEmpty then .ok (.Halt, ips)
  else
    match iterate_addrs program fuel c ips with
    | .error e => .error e
    | .ok (new_ips, m) => .ok ((if m then .Matched else .Continue), new_ips)

/-- The surviving-thread check after the inner scan of `Vm::matches`:
report success if any thread sits exactly on `Match`. -/
def check_match (program : List Instruction) : List Nat → Except VmError Bool
  | [] => .ok false
  | a :: rest =>
    match program[a]? with
    | none => .error .OutOfRange
    | some .Match => .ok true
    | some _ => check_match program rest

/-- The inner `for (_, c) in iter.clone()` scan of `Vm::matches` for one
start offset, followed by the surviving-thread check. -/
def runFrom (program : List Instruction) (fuel : Nat) (ips : List Nat) :
    List Char → Except VmError Bool
  | [] => check_match program ips
  | c :: rest =>
    match iterate program fuel ips c with
    | .error e => .error e
    | .ok (.Matched, _) => .ok true
    | .ok (.Halt, ips') => check_match program ips'
    | .ok (.Continue, ips') => runFrom program fuel ips' rest

/-- The outer `for _ in range(0, string.char_len())` loop of `Vm::matches`:
`n` start offsets remain and `chars` is the input suffix at the current
start offset. -/
def matchesAux (program : List Instruction) (fuel : Nat) :
    Nat → List Char → Except VmError Bool
  | 0, _ => .ok false
  | n + 1, chars =>
    match init program fuel with
    | .error e => .error e
    | .ok ips =>
      match runFrom program fuel ips chars with
      | .error e => .error e
      | .ok true => .ok true
      | .ok false => matchesAux program fuel n chars.tail

/-- `Vm::matches`: unanchored search, trying every start offset from 0 up to
(but not including) the codepoint length of the input. -/
def «matches» (program : List Instruction) (fuel : Nat) (string : List Char) :
    Except VmError Bool :=
  matchesAux program fuel string.length string

end Vm

/-- The metacharacters of the compiler wired to the virtual machine. -/
def isMeta (c : Char) : Bool :=
  c == '?' || c == '*' || c == '+' || c == '(' || c == ')' || c == '|'

/-- The program a metacharacter-free pattern compiles to: one `Char`
instruction per pattern character plus the trailing `Match`. -/
def litProg (t : List Char) : List Instruction :=
  t.map .Char ++ [.Match]

/-- The program that the pattern `(a*)*` compiles to; its epsilon
transitions contain the cycle `0 → 4 → 0` (via `Split 1 5` and `Jmp 0`)
that never reaches a `Char`/`Match` instruction, so `Vm::follow_jump`
expands it forever. -/
def groupStarProg : List Instruction :=
  [.Split 1 5, .Split 2 4, .Char 'a', .Jmp 1, .Jmp 0, .Match]

/-- Instructions at which the epsilon-closure expansion of
`Vm::follow_jump` stops: `Char` and `Match`. -/
def terminalInstr : Instruction → Bool
  | .Char _ => true
  | .Match => true
  | .Jmp _ => false
  | .Split _ _ => false

/-- Every address of `ips` is in range and holds a `Char` or `Match`
instruction of `program`. -/
def allTerminal (program : List Instruction) (ips : List Nat) : Prop :=
  ∀ a ∈ ips, ∃ ins, program[a]? = some ins ∧ terminalInstr ins = true

/-- One input-consuming step of the thread set on the program `litProg t`:
a thread at address `a` survives the character `c` exactly when `t[a] = c`,
moving to `a + 1`. -/
def stepLit (t : List Char) (c : Char) : List Nat → List Nat
  | [] => []
  | a :: rest =>
    if t[a]? = some c then (a + 1) :: stepLit t c rest else stepLit t c rest

/-- All `Jmp`/`Split` targets of the instruction are at most `n`
(intermediate compiler outputs may point one past their own end, to be
filled in by subsequent linking or by the final `Match`). -/
def targetLe (n : Nat) : Instruction → Prop
  | .Jmp a => a ≤ n
  | .Split a b => a ≤ n ∧ b ≤ n
  | _ => True

/-- All `Jmp`/`Split` targets of the instruction are strictly below `n`. -/
def targetLt (n : Nat) : Instruction → Prop
  | .Jmp a => a < n
  | .Split a b => a < n ∧ b < n
  | _ => True

/-- Every target of every instruction of `p` is at most `n`. -/
def boundedBy (p : List Instruction) (n : Nat) : Prop :=
  ∀ ins ∈ p, targetLe n ins

/-- Every target of every instruction of `p` is at most `p.length`. -/
def progLe (p : List Instruction) : Prop :=
  boundedBy p p.length

end RustRe

namespace RustRe

/-! ## Basic facts about the linker -/

theorem relink_zero (ins : Instruction) : Compiler.relink 0 ins = ins := by
  cases ins <;> simp [Compiler.relink]

theorem link_length (p1 p2 : List Instruction) :
    (Compiler.link p1 p2).length = p1.length + p2.length := by
  simp [Compiler.link]

/-- Helper shape lemma for `link_or`, shared by several proofs below. -/
theorem link_or_eq (p1 p2 : List Instruction) :
    Compiler.link_or p1 p2 =
      .Split 1 (p1.length + 2) :: p1.map (Compiler.relink 1)
        ++ [.Jmp (p1.length + p2.length + 2)]
        ++ p2.map (Compiler.relink (p1.length + 2)) := by
  have hlen : (Compiler.link [Instruction.Split 1 (p1.length + 2)] p1
      ++ [Instruction.Jmp (p1.length + p2.length + 2)]).length = p1.length + 2 := by
    simp only [List.length_append, link_length, List.length_cons, List.length_nil,
      List.length_map]
    omega
  simp only [Compiler.link_or, Compiler.link, hlen]
  simp [Compiler.link]

end RustRe

namespace RustRe

/-! ## Epsilon closure: termination implies non-empty, all-terminal results -/

theorem followPass_ok_terminal {program : List Instruction} {w w' t : List Nat}
    (h : Vm.followPass program w = .ok (w', t)) :
    ∀ a ∈ t, ∃ ins, program[a]? = some ins ∧ terminalInstr ins = true := by
  induction w generalizing w' t with
  | nil =>
    simp only [Vm.followPass, Except.ok.injEq, Prod.mk.injEq] at h
    obtain ⟨rfl, rfl⟩ := h
    simp
  | cons a rest ih =>
    rw [Vm.followPass] at h
    cases hga : program[a]? with
    | none => rw [hga] at h; exact absurd h (by simp)
    | some ins =>
      rw [hga] at h
      cases hrest : Vm.followPass program rest with
      | error e => cases ins <;> rw [hrest] at h <;> simp at h
      | ok wt =>
        obtain ⟨w0, t0⟩ := wt
        have hterm := ih hrest
        cases ins <;> rw [hrest] at h <;>
          simp only [Except.ok.injEq, Prod.mk.injEq] at h <;>
          obtain ⟨rfl, rfl⟩ := h
        · intro b hb
          rcases List.mem_cons.mp hb with rfl | hb
          · exact ⟨_, hga, rfl⟩
          · exact hterm b hb
        · exact hterm
        · intro b hb
          rcases List.mem_cons.mp hb with rfl | hb
          · exact ⟨_, hga, rfl⟩
          · exact hterm b hb
        · exact hterm

theorem followPass_ok_nonempty {program : List Instruction} {w w' t : List Nat}
    (h : Vm.followPass program w = .ok (w', t)) (hw : w ≠ []) (hw' : w' = []) :
    t ≠ [] := by
  cases w with
  | nil => exact absurd rfl hw
  | cons a rest =>
    rw [Vm.followPass] at h
    cases hga : program[a]? with
    | none => rw [hga] at h; exact absurd h (by simp)
    | some ins =>
      rw [hga] at h
      cases hrest : Vm.followPass program rest with
      | error e => cases ins <;> rw [hrest] at h <;> simp at h
      | ok wt =>
        obtain ⟨w0, t0⟩ := wt
        cases ins <;> rw [hrest] at h <;>
          simp only [Except.ok.injEq, Prod.mk.injEq] at h <;>
          obtain ⟨rfl, rfl⟩ := h <;> simp_all

theorem followPass_error {program : List Instruction} {w : List Nat} {e : VmError}
    (h : Vm.followPass program w = .error e) : e = .OutOfRange := by
  induction w generalizing e with
  | nil => simp [Vm.followPass] at h
  | cons a rest ih =>
    rw [Vm.followPass] at h
    cases hga : program[a]? with
    | none => rw [hga] at h; simpa using h.symm
    | some ins =>
      rw [hga] at h
      cases hrest : Vm.followPass program rest with
      | error e' =>
        have he' := ih hrest
        cases ins <;> rw [hrest] at h <;> simp only [Except.error.injEq] at h <;>
          exact h ▸ he'
      | ok wt =>
        obtain ⟨w0, t0⟩ := wt
        cases ins <;> rw [hrest] at h <;> simp at h

theorem follow_jump_loop_terminal {program : List Instruction} {fuel : Nat}
    {w acc l : List Nat} (h : Vm.follow_jump_loop program fuel w acc = .ok l)
    (hacc : ∀ a ∈ acc, ∃ ins, program[a]? = some ins ∧ terminalInstr ins = true) :
    ∀ a ∈ l, ∃ ins, program[a]? = some ins ∧ terminalInstr ins = true := by
  induction fuel generalizing w acc with
  | zero =>
    rw [Vm.follow_jump_loop] at h
    by_cases hw : w.isEmpty <;> simp [hw] at h
    exact h ▸ hacc
  | succ f ih =>
    rw [Vm.follow_jump_loop] at h
    by_cases hw : w.isEmpty
    · simp only [hw, if_true] at h
      exact (Except.ok.inj h) ▸ hacc
    · simp only [hw, if_false] at h
      cases hp : Vm.followPass program w with
      | error e => rw [hp] at h; simp at h
      | ok wt =>
        obtain ⟨w', terms⟩ := wt
        rw [hp] at h
        refine ih h ?_
        intro a ha
        rcases List.mem_append.mp ha with ha | ha
        · exact hacc a ha
        · exact followPass_ok_terminal hp a ha

theorem follow_jump_loop_nonempty {program : List Instruction} {fuel : Nat}
    {w acc l : List Nat} (h : Vm.follow_jump_loop program fuel w acc = .ok l)
    (hne : w ≠ [] ∨ acc ≠ []) : l ≠ [] := by
  induction fuel generalizing w acc with
  | zero =>
    rw [Vm.follow_jump_loop] at h
    by_cases hw : w.isEmpty <;> simp [hw] at h
    rcases hne with hne | hne
    · exact absurd (List.isEmpty_iff.mp hw) hne
    · exact h ▸ hne
  | succ f ih =>
    rw [Vm.follow_jump_loop] at h
    by_cases hw : w.isEmpty
    · simp only [hw, if_true] at h
      rcases hne with hne | hne
      · exact absurd (List.isEmpty_iff.mp hw) hne
      · exact (Except.ok.inj h) ▸ hne
    · simp only [hw, if_false] at h
      cases hp : Vm.followPass program w with
      | error e => rw [hp] at h; simp at h
      | ok wt =>
        obtain ⟨w', terms⟩ := wt
        rw [hp] at h
        refine ih h ?_
        by_cases hw' : w' = []
        · right
          have : terms ≠ [] :=
            followPass_ok_nonempty hp (fun hh => hw (by simp [hh])) hw'
          simp [this]
        · exact Or.inl hw'

theorem follow_jump_loop_error {program : List Instruction} {fuel : Nat}
    {w acc : List Nat} {e : VmError}
    (h : Vm.follow_jump_loop program fuel w acc = .error e) :
    e = .Loop ∨ e = .OutOfRange := by
  induction fuel generalizing w acc with
  | zero =>
    rw [Vm.follow_jump_loop] at h
    by_cases hw : w.isEmpty <;> simp [hw] at h
    exact Or.inl h.symm
  | succ f ih =>
    rw [Vm.follow_jump_loop] at h
    by_cases hw : w.isEmpty
    · simp [hw] at h
    · rw [if_neg hw] at h
      cases hp : Vm.followPass program w with
      | error e' =>
        rw [hp] at h
        have h' : e' = e := Except.error.inj h
        exact Or.inr (h' ▸ followPass_error hp)
      | ok wt =>
        obtain ⟨w', terms⟩ := wt
        rw [hp] at h
        exact ih h

theorem follow_jump_ok_nonempty {program : List Instruction} {fuel i : Nat}
    {l : List Nat} (h : Vm.follow_jump program fuel i = .ok l) : l ≠ [] :=
  follow_jump_loop_nonempty h (Or.inl (by simp))

theorem follow_jump_ok_terminal {program : List Instruction} {fuel i : Nat}
    {l : List Nat} (h : Vm.follow_jump program fuel i = .ok l) :
    allTerminal program l :=
  follow_jump_loop_terminal h (by simp)

theorem follow_jump_error {program : List Instruction} {fuel i : Nat}
    {e : VmError} (h : Vm.follow_jump program fuel i = .error e) :
    e = .Loop ∨ e = .OutOfRange :=
  follow_jump_loop_error h

/-- The defensive `if self.ips.is_empty() { self.ips.push(0); }` fallback in
`Vm::init` never fires: `init` is exactly the closure of address 0. -/
theorem init_eq_follow_jump (program : List Instruction) (fuel : Nat) :
    Vm.init program fuel = Vm.follow_jump program fuel 0 := by
  rw [Vm.init]
  cases h : Vm.follow_jump program fuel 0 with
  | error e => rfl
  | ok ips => simp [follow_jump_ok_nonempty h]

end RustRe

namespace RustRe

/-! ## The thread set stays on `Char`/`Match` instructions -/

theorem iterate_addrs_ok_terminal {program : List Instruction} {fuel : Nat} {c : Char} :
    ∀ {ips nips : List Nat} {m : Bool},
      Vm.iterate_addrs program fuel c ips = .ok (nips, m) → allTerminal program nips := by
  intro ips
  induction ips with
  | nil =>
    intro nips m h
    simp only [Vm.iterate_addrs, Except.ok.injEq, Prod.mk.injEq] at h
    obtain ⟨rfl, rfl⟩ := h.symm
    intro a ha
    simp at ha
  | cons a rest ih =>
    intro nips m h
    rw [Vm.iterate_addrs] at h
    split at h
    · simp at h
    · rename_i ch heq
      split at h
      · split at h
        · simp at h
        · rename_i new_addrs heq2
          split at h
          · simp at h
          · rename_i tail m2 heq3
            have h2 := Except.ok.inj h
            rw [Prod.mk.injEq] at h2
            have hnips := h2.1
            have hne : new_addrs.isEmpty = false := by
              simpa using follow_jump_ok_nonempty heq2
            rw [hne] at hnips
            intro b hb
            rw [← hnips] at hb
            simp only [Bool.false_eq_true, if_false] at hb
            rcases List.mem_append.mp hb with hb | hb
            · exact follow_jump_ok_terminal heq2 b hb
            · exact ih heq3 b hb
      · exact ih h
    · rename_i heq
      split at h
      · simp at h
      · rename_i tail m2 heq2
        have h2 := Except.ok.inj h
        rw [Prod.mk.injEq] at h2
        intro b hb
        rw [← h2.1] at hb
        exact ih heq2 b hb
    · simp at h

theorem iterate_addrs_error {program : List Instruction} {fuel : Nat} {c : Char} :
    ∀ {ips : List Nat} {e : VmError}, allTerminal program ips →
      Vm.iterate_addrs program fuel c ips = .error e →
      e = .Loop ∨ e = .OutOfRange := by
  intro ips
  induction ips with
  | nil =>
    intro e _ h
    simp [Vm.iterate_addrs] at h
  | cons a rest ih =>
    intro e hall h
    obtain ⟨ins, hga, hterm⟩ := hall a (List.mem_cons_self a rest)
    have hall' : allTerminal program rest := fun b hb => hall b (List.mem_cons_of_mem a hb)
    rw [Vm.iterate_addrs] at h
    split at h
    · rename_i heq
      rw [hga] at heq
      exact absurd heq (by simp)
    · rename_i ch heq
      split at h
      · split at h
        · rename_i e' heq2
          exact Except.error.inj h ▸ follow_jump_error heq2
        · rename_i new_addrs heq2
          split at h
          · rename_i e' heq3
            exact Except.error.inj h ▸ ih hall' heq3
          · simp at h
      · exact ih hall' h
    · rename_i heq
      split at h
      · rename_i e' heq2
        exact Except.error.inj h ▸ ih hall' heq2
      · simp at h
    · rename_i val hval1 hval2 heq
      have hiv : ins = val := by
        rw [hga] at heq
        exact Option.some.inj heq
      cases hv : val with
      | Char ch => exact absurd (hv ▸ hiv) (fun hh => hval1 ch (hv ▸ rfl))
      | Match => exact absurd hv hval2
      | Jmp x => rw [hiv, hv] at hterm; simp [terminalInstr] at hterm
      | Split x y => rw [hiv, hv] at hterm; simp [terminalInstr] at hterm

theorem iterate_ok_terminal {program : List Instruction} {fuel : Nat}
    {ips : List Nat} {c : Char} {r : IterResult} {ips' : List Nat}
    (hall : allTerminal program ips)
    (h : Vm.iterate program fuel ips c = .ok (r, ips')) :
    allTerminal program ips' := by
  rw [Vm.iterate] at h
  split at h
  · have h2 := Except.ok.inj h
    rw [Prod.mk.injEq] at h2
    exact h2.2 ▸ hall
  · split at h
    · simp at h
    · rename_i nips m heq
      have h2 := Except.ok.inj h
      rw [Prod.mk.injEq] at h2
      exact h2.2 ▸ iterate_addrs_ok_terminal heq

theorem iterate_error {program : List Instruction} {fuel : Nat}
    {ips : List Nat} {c : Char} {e : VmError} (hall : allTerminal program ips)
    (h : Vm.iterate program fuel ips c = .error e) :
    e = .Loop ∨ e = .OutOfRange := by
  rw [Vm.iterate] at h
  split at h
  · simp at h
  · split at h
    · rename_i e' heq
      exact Except.error.inj h ▸ iterate_addrs_error hall heq
    · simp at h

theorem check_match_error {program : List Instruction} :
    ∀ {ips : List Nat} {e : VmError},
      Vm.check_match program ips = .error e → e = .OutOfRange := by
  intro ips
  induction ips with
  | nil => intro e h; simp [Vm.check_match] at h
  | cons a rest ih =>
    intro e h
    rw [Vm.check_match] at h
    split at h
    · exact (Except.error.inj h).symm
    · simp at h
    · exact ih h

theorem runFrom_error {program : List Instruction} {fuel : Nat} :
    ∀ {chars : List Char} {ips : List Nat} {e : VmError},
      allTerminal program ips →
      Vm.runFrom program fuel ips chars = .error e →
      e = .Loop ∨ e = .OutOfRange := by
  intro chars
  induction chars with
  | nil =>
    intro ips e _ h
    exact Or.inr (check_match_error h)
  | cons c rest ih =>
    intro ips e hall h
    rw [Vm.runFrom] at h
    split at h
    · rename_i e' hit
      exact Except.error.inj h ▸ iterate_error hall hit
    · simp at h
    · rename_i ips' hit
      exact Or.inr (check_match_error h)
    · rename_i ips' hit
      exact ih (iterate_ok_terminal hall hit) h

theorem matchesAux_error {program : List Instruction} {fuel : Nat} :
    ∀ {n : Nat} {chars : List Char} {e : VmError},
      Vm.matchesAux program fuel n chars = .error e →
      e = .Loop ∨ e = .OutOfRange := by
  intro n
  induction n with
  | zero => intro chars e h; simp [Vm.matchesAux] at h
  | succ n ih =>
    intro chars e h
    rw [Vm.matchesAux] at h
    split at h
    · rename_i e' hini
      rw [init_eq_follow_jump] at hini
      exact Except.error.inj h ▸ follow_jump_error hini
    · rename_i ips hini
      have hall : allTerminal program ips :=
        follow_jump_ok_terminal (init_eq_follow_jump program fuel ▸ hini)
      split at h
      · rename_i e' hrun
        exact Except.error.inj h ▸ runFrom_error hall hrun
      · simp at h
      · exact ih h

theorem matches_error {program : List Instruction} {fuel : Nat}
    {string : List Char} {e : VmError}
    (h : Vm.«matches» program fuel string = .error e) :
    e = .Loop ∨ e = .OutOfRange :=
  matchesAux_error h

end RustRe

namespace RustRe

/-! ## The virtual machine on programs of `Char` instructions plus `Match` -/

theorem litProg_getElem_lt {t : List Char} {i : Nat} (h : i < t.length) :
    (litProg t)[i]? = some (.Char t[i]) := by
  unfold litProg
  rw [List.getElem?_append]
  rw [if_pos (by simpa using h)]
  simp [List.getElem?_map, List.getElem?_eq_getElem h]

theorem litProg_getElem_len (t : List Char) :
    (litProg t)[t.length]? = some .Match := by
  unfold litProg
  rw [List.getElem?_append_right (by simp)]
  simp

theorem litProg_getElem_le {t : List Char} {i : Nat} (h : i ≤ t.length) :
    ∃ ins, (litProg t)[i]? = some ins ∧ terminalInstr ins = true := by
  rcases Nat.lt_or_ge i t.length with hlt | hge
  · exact ⟨_, litProg_getElem_lt hlt, rfl⟩
  · have : i = t.length := Nat.le_antisymm h hge
    exact this ▸ ⟨_, litProg_getElem_len t, rfl⟩

theorem follow_jump_lit {t : List Char} {fuel i : Nat} (hfuel : 1 ≤ fuel)
    (hi : i ≤ t.length) : Vm.follow_jump (litProg t) fuel i = .ok [i] := by
  obtain ⟨f, rfl⟩ : ∃ f, fuel = f + 1 := ⟨fuel - 1, by omega⟩
  have hpass : Vm.followPass (litProg t) [i] = .ok ([], [i]) := by
    obtain ⟨ins, hins, hterm⟩ := litProg_getElem_le hi
    rw [Vm.followPass, hins]
    cases ins with
    | Char ch => rfl
    | Match => rfl
    | Jmp x => simp [terminalInstr] at hterm
    | Split x y => simp [terminalInstr] at hterm
  rw [Vm.follow_jump, Vm.follow_jump_loop, hpass]
  simp only [List.isEmpty_cons, Bool.false_eq_true, if_false]
  show Vm.follow_jump_loop (litProg t) f [] ([] ++ [i]) = .ok [i]
  rw [Vm.follow_jump_loop.eq_def]
  simp

theorem decide_exists_eq_cons_of_ne {a n : Nat} {rest : List Nat} (h : a ≠ n) :
    decide (∃ x ∈ a :: rest, x = n) = decide (∃ x ∈ rest, x = n) := by
  rw [decide_eq_decide]
  constructor
  · rintro ⟨x, hx, rfl⟩
    rcases List.mem_cons.mp hx with rfl | hx
    · exact absurd rfl h
    · exact ⟨x, hx, rfl⟩
  · rintro ⟨x, hx, rfl⟩
    exact ⟨x, List.mem_cons_of_mem a hx, rfl⟩

theorem check_match_lit {t : List Char} :
    ∀ {ips : List Nat}, (∀ a ∈ ips, a ≤ t.length) →
      Vm.check_match (litProg t) ips = .ok (decide (∃ a ∈ ips, a = t.length)) := by
  intro ips
  induction ips with
  | nil => intro _; simp [Vm.check_match]
  | cons a rest ih =>
    intro hb
    have ha : a ≤ t.length := hb a (List.mem_cons_self a rest)
    have hrest : ∀ b ∈ rest, b ≤ t.length :=
      fun b hbm => hb b (List.mem_cons_of_mem a hbm)
    rcases Nat.lt_or_ge a t.length with hlt | hge
    · have hred : Vm.check_match (litProg t) (a :: rest) =
          Vm.check_match (litProg t) rest := by
        rw [Vm.check_match, litProg_getElem_lt hlt]
      rw [hred, ih hrest, decide_exists_eq_cons_of_ne (Nat.ne_of_lt hlt)]
    · have heq : a = t.length := Nat.le_antisymm ha hge
      have hred : Vm.check_match (litProg t) (a :: rest) = .ok true := by
        rw [Vm.check_match, heq, litProg_getElem_len]
      rw [hred]
      have hex : ∃ x ∈ a :: rest, x = t.length := ⟨a, List.mem_cons_self a rest, heq⟩
      simp [hex]
      exact Or.inl heq.symm

end RustRe

namespace RustRe

theorem stepLit_le {t : List Char} {c : Char} :
    ∀ {ips : List Nat}, (∀ a ∈ ips, a ≤ t.length) →
      ∀ b ∈ stepLit t c ips, b ≤ t.length := by
  intro ips
  induction ips with
  | nil => intro _ b hb; simp [stepLit] at hb
  | cons a rest ih =>
    intro hbnd b hb
    have hrest := fun x hx => hbnd x (List.mem_cons_of_mem a hx)
    rw [stepLit] at hb
    split at hb
    · rename_i hsome
      rcases List.mem_cons.mp hb with rfl | hb
      · have hlt : a < t.length := by
          by_contra hge
          push_neg at hge
          rw [List.getElem?_eq_none hge] at hsome
          exact Option.noConfusion hsome
        omega
      · exact ih hrest b hb
    · exact ih hrest b hb

theorem mem_stepLit {t : List Char} {c : Char} :
    ∀ {ips : List Nat} {b : Nat},
      b ∈ stepLit t c ips ↔ ∃ a ∈ ips, t[a]? = some c ∧ b = a + 1 := by
  intro ips
  induction ips with
  | nil => intro b; simp [stepLit]
  | cons a rest ih =>
    intro b
    rw [stepLit]
    by_cases hsome : t[a]? = some c
    · rw [if_pos hsome]
      constructor
      · intro hb
        rcases List.mem_cons.mp hb with rfl | hb
        · exact ⟨a, List.mem_cons_self a rest, hsome, rfl⟩
        · obtain ⟨x, hx, hxc, rfl⟩ := ih.mp hb
          exact ⟨x, List.mem_cons_of_mem a hx, hxc, rfl⟩
      · rintro ⟨x, hx, hxc, rfl⟩
        rcases List.mem_cons.mp hx with rfl | hx
        · exact List.mem_cons_self _ _
        · exact List.mem_cons_of_mem _ (ih.mpr ⟨x, hx, hxc, rfl⟩)
    · rw [if_neg hsome]
      constructor
      · intro hb
        obtain ⟨x, hx, hxc, rfl⟩ := ih.mp hb
        exact ⟨x, List.mem_cons_of_mem a hx, hxc, rfl⟩
      · rintro ⟨x, hx, hxc, rfl⟩
        rcases List.mem_cons.mp hx with rfl | hx
        · exact absurd hxc hsome
        · exact ih.mpr ⟨x, hx, hxc, rfl⟩

theorem iterate_addrs_cons_char {program : List Instruction} {fuel : Nat}
    {c : Char} {a : Nat} {rest : List Nat} {ch : Char}
    (hga : program[a]? = some (.Char ch)) :
    Vm.iterate_addrs program fuel c (a :: rest) =
      if ch = c then
        match Vm.follow_jump program fuel (a + 1) with
        | .error e => .error e
        | .ok new_addrs =>
          match Vm.iterate_addrs program fuel c rest with
          | .error e => .error e
          | .ok (tail, m) =>
            .ok ((if new_addrs.isEmpty then [a + 1] else new_addrs) ++ tail, m)
      else Vm.iterate_addrs program fuel c rest := by
  rw [Vm.iterate_addrs, hga]

theorem iterate_addrs_cons_mat {program : List Instruction} {fuel : Nat}
    {c : Char} {a : Nat} {rest : List Nat}
    (hga : program[a]? = some .Match) :
    Vm.iterate_addrs program fuel c (a :: rest) =
      match Vm.iterate_addrs program fuel c rest with
      | .error e => .error e
      | .ok (tail, _) => .ok (tail, true) := by
  rw [Vm.iterate_addrs, hga]

theorem iterate_addrs_lit {t : List Char} {fuel : Nat} {c : Char}
    (hfuel : 1 ≤ fuel) :
    ∀ {ips : List Nat}, (∀ a ∈ ips, a ≤ t.length) →
      Vm.iterate_addrs (litProg t) fuel c ips =
        .ok (stepLit t c ips, decide (∃ a ∈ ips, a = t.length)) := by
  intro ips
  induction ips with
  | nil => intro _; simp [Vm.iterate_addrs, stepLit]
  | cons a rest ih =>
    intro hb
    have ha : a ≤ t.length := hb a (List.mem_cons_self a rest)
    have hrest := fun x hx => hb x (List.mem_cons_of_mem a hx)
    rcases Nat.lt_or_ge a t.length with hlt | hge
    · have hga := litProg_getElem_lt hlt
      by_cases hc : t[a] = c
      · have hstep : stepLit t c (a :: rest) = (a + 1) :: stepLit t c rest := by
          rw [stepLit, if_pos (by rw [List.getElem?_eq_getElem hlt, hc])]
        rw [iterate_addrs_cons_char hga, if_pos hc,
          follow_jump_lit hfuel (show a + 1 ≤ t.length by omega), ih hrest,
          hstep, decide_exists_eq_cons_of_ne (Nat.ne_of_lt hlt)]
        rfl
      · have hstep : stepLit t c (a :: rest) = stepLit t c rest := by
          rw [stepLit,
            if_neg (by rw [List.getElem?_eq_getElem hlt]; exact fun hh => hc (Option.some.inj hh))]
        rw [iterate_addrs_cons_char hga, if_neg hc, ih hrest, hstep,
          decide_exists_eq_cons_of_ne (Nat.ne_of_lt hlt)]
    · have heq : a = t.length := Nat.le_antisymm ha hge
      have hga : (litProg t)[a]? = some .Match := by
        rw [heq]; exact litProg_getElem_len t
      have hstep : stepLit t c (a :: rest) = stepLit t c rest := by
        rw [stepLit, if_neg (by rw [heq, List.getElem?_eq_none (Nat.le_refl _)]; simp)]
      have hex : ∃ x ∈ a :: rest, x = t.length := ⟨a, List.mem_cons_self a rest, heq⟩
      rw [iterate_addrs_cons_mat hga, ih hrest, hstep, decide_eq_true hex]

theorem runFrom_lit {t : List Char} {fuel : Nat} (hfuel : 1 ≤ fuel) :
    ∀ (s : List Char) {ips : List Nat}, (∀ a ∈ ips, a ≤ t.length) →
      Vm.runFrom (litProg t) fuel ips s =
        .ok (decide (∃ a ∈ ips, t.drop a <+: s)) := by
  intro s
  induction s with
  | nil =>
    intro ips hb
    rw [Vm.runFrom, check_match_lit hb]
    congr 1
    rw [decide_eq_decide]
    constructor
    · rintro ⟨a, ha, heq⟩
      exact ⟨a, ha, by rw [heq, List.drop_length]⟩
    · rintro ⟨a, ha, hpre⟩
      have h1 : t.drop a = [] := List.prefix_nil.mp hpre
      have h2 : t.length ≤ a := by
        by_contra hlt
        push_neg at hlt
        have hne : t.drop a ≠ [] := by
          apply List.ne_nil_of_length_pos
          rw [List.length_drop]
          omega
        exact hne h1
      exact ⟨a, ha, Nat.le_antisymm (hb a ha) h2⟩
  | cons c s' ih =>
    intro ips hb
    cases ips with
    | nil => simp [Vm.runFrom, Vm.iterate, Vm.check_match]
    | cons a0 rest0 =>
      have hit := iterate_addrs_lit (c := c) hfuel hb
      by_cases hm : ∃ x ∈ a0 :: rest0, x = t.length
      · have hiter : Vm.iterate (litProg t) fuel (a0 :: rest0) c =
            .ok (.Matched, stepLit t c (a0 :: rest0)) := by
          rw [Vm.iterate, if_neg (by simp), hit, decide_eq_true hm]
          rfl
        rw [Vm.runFrom, hiter]
        have hex : ∃ a ∈ a0 :: rest0, t.drop a <+: c :: s' := by
          obtain ⟨x, hx, hxe⟩ := hm
          refine ⟨x, hx, ?_⟩
          rw [hxe, List.drop_length]
          exact List.nil_prefix
        rw [decide_eq_true hex]
      · have hiter : Vm.iterate (litProg t) fuel (a0 :: rest0) c =
            .ok (.Continue, stepLit t c (a0 :: rest0)) := by
          rw [Vm.iterate, if_neg (by simp), hit, decide_eq_false hm]
          rfl
        rw [Vm.runFrom, hiter]
        show Vm.runFrom (litProg t) fuel (stepLit t c (a0 :: rest0)) s' =
          .ok (decide (∃ a ∈ a0 :: rest0, t.drop a <+: c :: s'))
        rw [ih (stepLit_le hb)]
        congr 1
        rw [decide_eq_decide]
        constructor
        · rintro ⟨b, hbm, hpre⟩
          obtain ⟨x, hx, hxc, rfl⟩ := mem_stepLit.mp hbm
          have hlt : x < t.length := by
            by_contra hge
            push_neg at hge
            rw [List.getElem?_eq_none hge] at hxc
            exact Option.noConfusion hxc
          refine ⟨x, hx, ?_⟩
          rw [List.drop_eq_getElem_cons hlt, List.cons_prefix_cons]
          constructor
          · have hg := List.getElem?_eq_getElem hlt
            rw [hg] at hxc
            exact Option.some.inj hxc
          · exact hpre
        · rintro ⟨x, hx, hpre⟩
          have hxle := hb x hx
          have hne : x ≠ t.length := fun hh => hm ⟨x, hx, hh⟩
          have hlt : x < t.length := by omega
          rw [List.drop_eq_getElem_cons hlt, List.cons_prefix_cons] at hpre
          refine ⟨x + 1, mem_stepLit.mpr ⟨x, hx, ?_, rfl⟩, hpre.2⟩
          rw [List.getElem?_eq_getElem hlt, hpre.1]

end RustRe

namespace RustRe

theorem matchesAux_lit {t : List Char} {fuel : Nat} (hfuel : 1 ≤ fuel) :
    ∀ (m : Nat) (chars : List Char),
      Vm.matchesAux (litProg t) fuel m chars =
        .ok (decide (∃ k, k < m ∧ t <+: chars.drop k)) := by
  intro m
  induction m with
  | zero => intro chars; simp [Vm.matchesAux]
  | succ n ih =>
    intro chars
    have hini : Vm.init (litProg t) fuel = .ok [0] := by
      rw [init_eq_follow_jump]
      exact follow_jump_lit hfuel (Nat.zero_le _)
    have hb0 : ∀ a ∈ ([0] : List Nat), a ≤ t.length := by
      intro a ha
      simp at ha
      omega
    have hrun := runFrom_lit (t := t) hfuel chars hb0
    rw [Vm.matchesAux, hini]
    show (match Vm.runFrom (litProg t) fuel [0] chars with
          | Except.error e => Except.error e
          | Except.ok true => Except.ok true
          | Except.ok false => Vm.matchesAux (litProg t) fuel n chars.tail) =
        .ok (decide (∃ k, k < n + 1 ∧ t <+: chars.drop k))
    rw [hrun]
    by_cases h0 : t <+: chars
    · have hd : decide (∃ a ∈ ([0] : List Nat), t.drop a <+: chars) = true := by simp [h0]
      rw [hd]
      have hex : ∃ k, k < n + 1 ∧ t <+: chars.drop k :=
        ⟨0, Nat.succ_pos n, by simpa using h0⟩
      rw [decide_eq_true hex]
    · have hd : decide (∃ a ∈ ([0] : List Nat), t.drop a <+: chars) = false := by simp [h0]
      rw [hd]
      show Vm.matchesAux (litProg t) fuel n chars.tail = _
      rw [ih chars.tail]
      congr 1
      rw [decide_eq_decide]
      constructor
      · rintro ⟨k, hk, hpre⟩
        refine ⟨k + 1, by omega, ?_⟩
        rw [← List.drop_one, List.drop_drop] at hpre
        simpa [Nat.add_comm] using hpre
      · rintro ⟨k, hk, hpre⟩
        cases k with
        | zero => exact absurd (by simpa using hpre) h0
        | succ j =>
          refine ⟨j, by omega, ?_⟩
          rw [← List.drop_one, List.drop_drop]
          simpa [Nat.add_comm] using hpre

theorem exists_drop_prefix_iff {t l : List Char} :
    (∃ k, k < l.length ∧ t <+: l.drop k) ↔ (t <:+: l ∧ l ≠ []) := by
  constructor
  · rintro ⟨k, hk, hpre⟩
    constructor
    · exact List.infix_iff_prefix_suffix.mpr ⟨l.drop k, hpre, List.drop_suffix k l⟩
    · intro hl
      subst hl
      simp at hk
  · rintro ⟨hinf, hne⟩
    obtain ⟨s, hts, hsl⟩ := List.infix_iff_prefix_suffix.mp hinf
    by_cases hs : s = []
    · subst hs
      have ht : t = [] := List.prefix_nil.mp hts
      refine ⟨0, ?_, ?_⟩
      · cases l with
        | nil => exact absurd rfl hne
        | cons x xs => simp
      · rw [ht]
        exact List.nil_prefix
    · have hdrop := List.suffix_iff_eq_drop.mp hsl
      refine ⟨l.length - s.length, ?_, ?_⟩
      · have hsle : s.length ≤ l.length := hsl.length_le
        have hspos : 0 < s.length := List.length_pos.mpr hs
        omega
      · rw [← hdrop]
        exact hts

/-- `Vm::matches` on a program of `Char` instructions plus a final `Match`
is substring search, except that nothing matches the empty input. -/
theorem matches_lit {t : List Char} {fuel : Nat} (hfuel : 1 ≤ fuel)
    (input : List Char) :
    Vm.«matches» (litProg t) fuel input =
      .ok (decide (t <:+: input ∧ input ≠ [])) := by
  rw [Vm.«matches», matchesAux_lit hfuel]
  congr 1
  rw [decide_eq_decide]
  exact exists_drop_prefix_iff

end RustRe

namespace RustRe

/-! ## Compiling metacharacter-free patterns -/

theorem quantify_nil (p : List Instruction) : Compiler.quantify p [] = (p, []) := rfl

theorem quantify_not_quant {p : List Instruction} {i : Nat} {d : Char}
    {rest : List (Nat × Char)} (h1 : d ≠ '?') (h2 : d ≠ '*') (h3 : d ≠ '+') :
    Compiler.quantify p ((i, d) :: rest) = (p, (i, d) :: rest) := by
  unfold Compiler.quantify
  split
  · rename_i heq
    simp only [List.cons.injEq, Prod.mk.injEq] at heq
    exact absurd heq.1.2 h1
  · rename_i heq
    simp only [List.cons.injEq, Prod.mk.injEq] at heq
    exact absurd heq.1.2 h2
  · rename_i heq
    simp only [List.cons.injEq, Prod.mk.injEq] at heq
    exact absurd heq.1.2 h3
  · rfl

theorem isMeta_false_elim {c : Char} (h : isMeta c = false) :
    c ≠ '?' ∧ c ≠ '*' ∧ c ≠ '+' ∧ c ≠ '(' ∧ c ≠ ')' ∧ c ≠ '|' := by
  simp only [isMeta, Bool.or_eq_false_iff, beq_eq_false_iff_ne, ne_eq] at h
  exact ⟨h.1.1.1.1.1, h.1.1.1.1.2, h.1.1.1.2, h.1.1.2, h.1.2, h.2⟩

theorem compile_one_lit (f base : Nat) {c : Char} {t : List Char}
    (hc : isMeta c = false) (ht : ∀ d ∈ t, isMeta d = false) :
    Compiler.compile_one (f + 1) ((base, c) :: charOffsets (base + c.utf8Size) t) =
      .ok ([.Char c], charOffsets (base + c.utf8Size) t) := by
  obtain ⟨hq, hs, hp, hl, hr, hb⟩ := isMeta_false_elim hc
  simp only [Compiler.compile_one]
  rw [if_neg (by tauto)]
  rw [if_neg hl]
  cases t with
  | nil => rfl
  | cons d rest =>
    have hd := isMeta_false_elim (ht d (List.mem_cons_self d rest))
    rw [show charOffsets (base + c.utf8Size) (d :: rest) =
      (base + c.utf8Size, d) :: charOffsets (base + c.utf8Size + d.utf8Size) rest from rfl]
    rw [quantify_not_quant hd.1 hd.2.1 hd.2.2.1]

theorem compile_fragment_loop_step_nil {f : Nat} {delim : Option Char}
    {fragment program p : List Instruction} {input : List (Nat × Char)}
    (hone : Compiler.compile_one f input = .ok (p, [])) :
    Compiler.compile_fragment_loop (f + 1) delim fragment program input =
      .ok (Compiler.fragment_result fragment (Compiler.link program p), false, []) := by
  rw [Compiler.compile_fragment_loop, hone]

theorem compile_fragment_loop_step_cons {f : Nat} {delim : Option Char}
    {fragment program p : List Instruction} {input : List (Nat × Char)}
    {j : Nat} {c : Char} {rest' : List (Nat × Char)}
    (hone : Compiler.compile_one f input = .ok (p, (j, c) :: rest')) :
    Compiler.compile_fragment_loop (f + 1) delim fragment program input =
      if c = '|' then
        if fragment.isEmpty then
          Compiler.compile_fragment_loop f delim (Compiler.link program p) [] rest'
        else
          Compiler.compile_fragment_loop f delim
            (Compiler.link_or fragment (Compiler.link program p)) [] rest'
      else if delim = some c then
        .ok (Compiler.fragment_result fragment (Compiler.link program p), true, rest')
      else
        Compiler.compile_fragment_loop f delim fragment (Compiler.link program p)
          ((j, c) :: rest') := by
  rw [Compiler.compile_fragment_loop, hone]

theorem compile_fragment_loop_lit (delim : Option Char) :
    ∀ (t : List Char) (fuel base : Nat) (prog : List Instruction),
      (∀ c ∈ t, isMeta c = false) →
      (∀ c ∈ t, delim ≠ some c) →
      t.length + 2 ≤ fuel →
      Compiler.compile_fragment_loop fuel delim [] prog (charOffsets base t) =
        .ok (prog ++ t.map .Char, false, []) := by
  intro t
  induction t with
  | nil =>
    intro fuel base prog _ _ hfuel
    obtain ⟨f, rfl⟩ : ∃ f, fuel = f + 1 := ⟨fuel - 1, by omega⟩
    obtain ⟨g, rfl⟩ : ∃ g, f = g + 1 := ⟨f - 1, by omega⟩
    rw [compile_fragment_loop_step_nil
      (show Compiler.compile_one (g + 1) (charOffsets base []) = .ok ([], []) from rfl)]
    simp [Compiler.fragment_result, Compiler.link]
  | cons c rest ih =>
    intro fuel base prog hmeta hdelim hfuel
    obtain ⟨f, rfl⟩ : ∃ f, fuel = f + 1 := ⟨fuel - 1, by omega⟩
    obtain ⟨g, rfl⟩ : ∃ g, f = g + 1 := ⟨f - 1, by omega⟩
    have hc := hmeta c (List.mem_cons_self c rest)
    have hrest := fun d hd => hmeta d (List.mem_cons_of_mem c hd)
    rw [show charOffsets base (c :: rest) =
      (base, c) :: charOffsets (base + c.utf8Size) rest from rfl]
    cases rest with
    | nil =>
      rw [compile_fragment_loop_step_nil (compile_one_lit g base hc hrest)]
      simp [Compiler.fragment_result, Compiler.link, Compiler.relink]
    | cons d rest2 =>
      have hone := compile_one_lit g base hc hrest
      rw [show charOffsets (base + c.utf8Size) (d :: rest2) =
        (base + c.utf8Size, d) :: charOffsets (base + c.utf8Size + d.utf8Size) rest2 from rfl]
        at hone ⊢
      rw [compile_fragment_loop_step_cons hone]
      have hd := isMeta_false_elim (hmeta d (by simp))
      have hdel : ¬(delim = some d) := hdelim d (by simp)
      rw [if_neg hd.2.2.2.2.2, if_neg hdel]
      have hih := ih (g + 1) (base + c.utf8Size) (Compiler.link prog [.Char c])
        (fun x hx => hrest x hx)
        (fun x hx => hdelim x (List.mem_cons_of_mem c hx))
        (by simp at hfuel ⊢; omega)
      rw [show ((base + c.utf8Size, d) :: charOffsets (base + c.utf8Size + d.utf8Size) rest2) =
        charOffsets (base + c.utf8Size) (d :: rest2) from rfl]
      rw [hih]
      simp [Compiler.link, Compiler.relink]

/-- A metacharacter-free pattern compiles to one `Char` instruction per
pattern character followed by the final `Match`. -/
theorem compile_lit {t : List Char} (hmeta : ∀ c ∈ t, isMeta c = false) :
    compile t = .ok (litProg t) := by
  rw [compile, Compiler.compile]
  have h := compile_fragment_loop_lit none t (4 * t.length + 8) 0 [] hmeta
    (fun c _ => by simp) (by omega)
  rw [h]
  simp [litProg]

end RustRe

namespace RustRe

/-! ## Unterminated groups -/

theorem compile_one_group {f i : Nat} {rest : List (Nat × Char)} :
    Compiler.compile_one (f + 1) ((i, '(') :: rest) =
      match Compiler.compile_group f rest with
      | .error e => .error e
      | .ok (p, rest') => .ok (Compiler.quantify p rest') := by
  simp only [Compiler.compile_one]
  rw [if_neg (by decide)]
  simp

theorem compile_unterminated {t : List Char}
    (hmeta : ∀ c ∈ t, isMeta c = false) :
    compile ('(' :: t) = .error UNEXPECTED_EOS := by
  have hdel : ∀ c ∈ t, (some ')' : Option Char) ≠ some c := by
    intro c hc heq
    exact (isMeta_false_elim (hmeta c hc)).2.2.2.2.1 (Option.some.inj heq).symm
  rw [compile, Compiler.compile]
  rw [show (4 * ('(' :: t).length + 8) = (4 * t.length + 11) + 1 from by simp; omega]
  rw [show charOffsets 0 ('(' :: t) =
    (0, '(') :: charOffsets (0 + Char.utf8Size '(') t from rfl]
  rw [Compiler.compile_fragment_loop]
  rw [show (4 * t.length + 11 : Nat) = (4 * t.length + 10) + 1 from by omega]
  rw [compile_one_group]
  rw [show (4 * t.length + 10 : Nat) = (4 * t.length + 9) + 1 from by omega]
  rw [Compiler.compile_group]
  rw [compile_fragment_loop_lit (some ')') t (4 * t.length + 9)
    (0 + Char.utf8Size '(') [] hmeta hdel (by omega)]
  rfl

/-! ## The epsilon cycle of `(a*)*` -/

theorem groupStar_follow_loop :
    ∀ (fuel : Nat) (acc : List Nat),
      (Vm.follow_jump_loop groupStarProg fuel [0] acc = .error .Loop) ∧
      (Vm.follow_jump_loop groupStarProg fuel [1, 5] acc = .error .Loop) ∧
      (Vm.follow_jump_loop groupStarProg fuel [2, 4] acc = .error .Loop) := by
  intro fuel
  induction fuel with
  | zero => intro acc; exact ⟨rfl, rfl, rfl⟩
  | succ f ih =>
    intro acc
    refine ⟨?_, ?_, ?_⟩
    · rw [Vm.follow_jump_loop]
      show Vm.follow_jump_loop groupStarProg f [1, 5] (acc ++ []) = .error .Loop
      exact (ih (acc ++ [])).2.1
    · rw [Vm.follow_jump_loop]
      show Vm.follow_jump_loop groupStarProg f [2, 4] (acc ++ [5]) = .error .Loop
      exact (ih (acc ++ [5])).2.2
    · rw [Vm.follow_jump_loop]
      show Vm.follow_jump_loop groupStarProg f [0] (acc ++ [2]) = .error .Loop
      exact (ih (acc ++ [2])).1

theorem groupStar_follow_jump (fuel : Nat) :
    Vm.follow_jump groupStarProg fuel 0 = .error .Loop :=
  (groupStar_follow_loop fuel []).1

theorem groupStar_matches (fuel : Nat) (s : List Char) (hs : s ≠ []) :
    Vm.«matches» groupStarProg fuel s = .error .Loop := by
  obtain ⟨c, s', rfl⟩ : ∃ c s', s = c :: s' := by
    cases s with
    | nil => exact absurd rfl hs
    | cons c s' => exact ⟨c, s', rfl⟩
  rw [Vm.«matches»]
  show Vm.matchesAux groupStarProg fuel (s'.length + 1) (c :: s') = .error .Loop
  rw [Vm.matchesAux, init_eq_follow_jump, groupStar_follow_jump]

end RustRe

namespace RustRe

/-! ## All jump targets of a compiled program are in range -/

theorem progLe_nil : progLe [] := fun ins hins => absurd hins (by simp)

theorem targetLe_mono {n m : Nat} {ins : Instruction} (h : n ≤ m)
    (hle : targetLe n ins) : targetLe m ins := by
  cases ins <;> simp [targetLe] at hle ⊢ <;> omega

theorem targetLe_relink {n k : Nat} {ins : Instruction} (h : targetLe n ins) :
    targetLe (k + n) (Compiler.relink k ins) := by
  cases ins <;> simp [targetLe, Compiler.relink] at h ⊢ <;> omega

theorem boundedBy_append {p q : List Instruction} {n : Nat}
    (hp : boundedBy p n) (hq : boundedBy q n) : boundedBy (p ++ q) n := by
  intro ins hins
  rcases List.mem_append.mp hins with h | h
  · exact hp ins h
  · exact hq ins h

theorem boundedBy_mono {p : List Instruction} {n m : Nat} (h : n ≤ m)
    (hp : boundedBy p n) : boundedBy p m :=
  fun ins hins => targetLe_mono h (hp ins hins)

theorem boundedBy_map_relink {p : List Instruction} {n k : Nat}
    (hp : boundedBy p n) : boundedBy (p.map (Compiler.relink k)) (k + n) := by
  intro ins hins
  obtain ⟨x, hx, rfl⟩ := List.mem_map.mp hins
  exact targetLe_relink (hp x hx)

theorem progLe_link {p q : List Instruction} (hp : progLe p) (hq : progLe q) :
    progLe (Compiler.link p q) := by
  show boundedBy (p ++ q.map (Compiler.relink p.length)) (Compiler.link p q).length
  rw [link_length]
  exact boundedBy_append (boundedBy_mono (by omega) hp)
    (boundedBy_mono (by omega) (boundedBy_map_relink hq))

theorem progLe_link_or {p q : List Instruction} (hp : progLe p) (hq : progLe q) :
    progLe (Compiler.link_or p q) := by
  unfold progLe
  rw [link_or_eq]
  have hlen : (Instruction.Split 1 (p.length + 2) :: p.map (Compiler.relink 1)
      ++ [Instruction.Jmp (p.length + q.length + 2)]
      ++ q.map (Compiler.relink (p.length + 2))).length =
      p.length + q.length + 2 := by
    simp
    omega
  rw [hlen]
  intro ins hins
  rcases List.mem_cons.mp hins with rfl | hins
  · simp [targetLe]
  · rcases List.mem_append.mp hins with hins | hins
    · rcases List.mem_append.mp hins with hins | hins
      · exact targetLe_mono (by omega) (boundedBy_map_relink (k := 1) hp ins hins)
      · simp at hins
        subst hins
        simp [targetLe]
    · exact targetLe_mono (by omega)
        (boundedBy_map_relink (k := p.length + 2) hq ins hins)

theorem progLe_char (c : Char) : progLe [.Char c] := by
  intro ins hins
  simp at hins
  subst hins
  simp [targetLe]

theorem progLe_quantify {p : List Instruction} (hp : progLe p)
    (input : List (Nat × Char)) : progLe (Compiler.quantify p input).1 := by
  unfold Compiler.quantify
  split
  · show progLe (Compiler.link [.Split 1 (p.length + 1)] p)
    unfold progLe
    rw [link_length]
    intro ins hins
    rcases List.mem_append.mp hins with hins | hins
    · simp at hins
      subst hins
      simp [targetLe]
      omega
    · exact targetLe_mono (by simp)
        (boundedBy_map_relink (k := 1) (n := p.length) hp ins hins)
  · show progLe (Compiler.link [.Split 1 (p.length + 2)] p ++ [.Jmp 0])
    unfold progLe
    rw [List.length_append, link_length]
    intro ins hins
    rcases List.mem_append.mp hins with hins | hins
    · rcases List.mem_append.mp hins with hins | hins
      · simp at hins
        subst hins
        simp [targetLe]
        omega
      · exact targetLe_mono (by simp)
          (boundedBy_map_relink (k := 1) (n := p.length) hp ins hins)
    · simp at hins
      subst hins
      simp [targetLe]
  · show progLe (p ++ [.Split 0 (p.length + 1)])
    unfold progLe
    rw [List.length_append]
    intro ins hins
    rcases List.mem_append.mp hins with hins | hins
    · exact targetLe_mono (by simp) (hp ins hins)
    · simp at hins
      subst hins
      simp [targetLe]
  · exact hp

theorem fragment_result_progLe {frag prog : List Instruction}
    (hf : progLe frag) (hp : progLe prog) :
    progLe (Compiler.fragment_result frag prog) := by
  unfold Compiler.fragment_result
  split
  · exact hp
  · exact progLe_link_or hf hp

theorem compile_one_succ {f : Nat} {input : List (Nat × Char)} :
    Compiler.compile_one (f + 1) input =
      match input with
      | [] => .ok ([], [])
      | (i, c) :: rest =>
        if c = '?' ∨ c = '*' ∨ c = '+' ∨ c = ')' ∨ c = '|' then
          .error s!"Unexpected char \x27{c}\x27 at {i}."
        else if c = '(' then
          match Compiler.compile_group f rest with
          | .error e => .error e
          | .ok (p, rest2) => .ok (Compiler.quantify p rest2)
        else
          .ok (Compiler.quantify [.Char c] rest) := by
  rw [Compiler.compile_one.eq_def]

theorem compile_bounds : ∀ (fuel : Nat),
    (∀ (input : List (Nat × Char)) (p : List Instruction)
      (rest : List (Nat × Char)),
      Compiler.compile_one fuel input = .ok (p, rest) → progLe p) ∧
    (∀ (input : List (Nat × Char)) (p : List Instruction)
      (rest : List (Nat × Char)),
      Compiler.compile_group fuel input = .ok (p, rest) → progLe p) ∧
    (∀ (delim : Option Char) (fragment program : List Instruction)
      (input : List (Nat × Char)) (p : List Instruction) (b : Bool)
      (rest : List (Nat × Char)),
      progLe fragment → progLe program →
      Compiler.compile_fragment_loop fuel delim fragment program input =
        .ok (p, b, rest) →
      progLe p) := by
  intro fuel
  induction fuel with
  | zero =>
    refine ⟨?_, ?_, ?_⟩
    · intro input p rest h
      simp [Compiler.compile_one.eq_def] at h
    · intro input p rest h
      rw [Compiler.compile_group] at h
      exact absurd h (by simp)
    · intro delim frag prog input p b rest _ _ h
      rw [Compiler.compile_fragment_loop] at h
      exact absurd h (by simp)
  | succ f ih =>
    obtain ⟨ih1, ih2, ih3⟩ := ih
    refine ⟨?_, ?_, ?_⟩
    · intro input p rest h
      rw [compile_one_succ] at h
      split at h
      · have h2 := Except.ok.inj h
        rw [Prod.mk.injEq] at h2
        exact h2.1 ▸ progLe_nil
      · split at h
        · simp at h
        · split at h
          · split at h
            · simp at h
            · rename_i p' rest' heq
              have h2 := Except.ok.inj h
              have hq := progLe_quantify (ih2 _ _ _ heq) rest'
              rw [h2] at hq
              exact hq
          · have h2 := Except.ok.inj h
            rename_i i c rest0 hmeta hpar
            have hq := progLe_quantify (progLe_char c) rest0
            rw [h2] at hq
            exact hq
    · intro input p rest h
      rw [Compiler.compile_group] at h
      split at h
      · simp at h
      · rename_i p' found rest' heq
        split at h
        · have h2 := Except.ok.inj h
          rw [Prod.mk.injEq] at h2
          exact h2.1 ▸ ih3 (some ')') [] [] input p' found rest' progLe_nil progLe_nil heq
        · simp at h
    · intro delim frag prog input p b rest hfragle hprogle h
      rw [Compiler.compile_fragment_loop] at h
      split at h
      · simp at h
      · rename_i p1 rest1 heq1
        have hp1 := ih1 _ _ _ heq1
        have hprog' := progLe_link hprogle hp1
        split at h
        · have h2 := Except.ok.inj h
          rw [Prod.mk.injEq] at h2
          exact h2.1 ▸ fragment_result_progLe hfragle hprog'
        · split at h
          · split at h
            · exact ih3 _ _ _ _ _ _ _ hprog' progLe_nil h
            · exact ih3 _ _ _ _ _ _ _ (progLe_link_or hfragle hprog') progLe_nil h
          · split at h
            · have h2 := Except.ok.inj h
              rw [Prod.mk.injEq] at h2
              exact h2.1 ▸ fragment_result_progLe hfragle hprog'
            · exact ih3 _ _ _ _ _ _ _ hfragle hprog' h

theorem compile_targets_aux {pattern : List Char} {prog : List Instruction}
    (h : compile pattern = .ok prog) :
    ∀ ins ∈ prog, targetLt prog.length ins := by
  rw [compile, Compiler.compile] at h
  split at h
  · simp at h
  · rename_i p found rest heq
    have hple := (compile_bounds _).2.2 none [] [] _ p found rest
      progLe_nil progLe_nil heq
    have h2 := Except.ok.inj h
    subst h2
    intro ins hins
    rcases List.mem_append.mp hins with hins | hins
    · have hle := hple ins hins
      have hlen : (p ++ [Instruction.Match]).length = p.length + 1 := by simp
      rw [hlen]
      cases ins <;> simp [targetLe] at hle <;> simp [targetLt] <;> omega
    · simp at hins
      subst hins
      simp [targetLt]

end RustRe

namespace RustRe

/-! ## The claims -/

/-- Claim C1 (amended): for every pattern of non-metacharacters the compiled
program is the `Char` sequence plus `Match`, and `matches` returns true iff
the pattern text occurs as a contiguous substring of the input AND the input
is non-empty.  (The original claim, without the non-emptiness condition,
fails at the empty pattern with the empty input; see the counterexample.) -/
theorem claim_C1 (t input : List Char) (fuel : Nat)
    (hmeta : ∀ c ∈ t, isMeta c = false) (hfuel : 1 ≤ fuel) :
    compile t = .ok (litProg t) ∧
    Vm.«matches» (litProg t) fuel input =
      .ok (decide (List.IsInfix t input ∧ input ≠ [])) :=
  ⟨compile_lit hmeta, matches_lit hfuel input⟩

/-- Claim C1 (counterexample): the empty pattern has no metacharacters and
its text occurs as a contiguous substring of the empty input, yet the
compiled program's `matches` does not return true there. -/
theorem claim_C1_counterexample :
    (∀ c ∈ ([] : List Char), isMeta c = false) ∧
    List.IsInfix ([] : List Char) [] ∧
    compile ([] : List Char) = .ok [.Match] ∧
    Vm.«matches» [.Match] 1 [] ≠ .ok true := by
  refine ⟨by simp, ⟨[], [], rfl⟩, rfl, ?_⟩
  intro h
  exact Bool.noConfusion (Except.ok.inj h)

/-- Witness for C1 at pattern "ab", input "xab". -/
theorem claim_C1_witness :
    compile ['a', 'b'] = .ok (litProg ['a', 'b']) ∧
    Vm.«matches» (litProg ['a', 'b']) 1 ['x', 'a', 'b'] =
      .ok (decide (List.IsInfix ['a', 'b'] ['x', 'a', 'b'] ∧
        (['x', 'a', 'b'] : List Char) ≠ [])) :=
  claim_C1 ['a', 'b'] ['x', 'a', 'b'] 1 (by decide) (by decide)

/-- Claim C2: for every program produced by `compile`, every address of the
post-closure thread set (after `init`, and after each `iterate` step) holds
a `Char` or `Match` instruction, and consequently the fatal
`fail!("Unexpected jump instruction.")` abort in `Vm::iterate` (modelled as
the `.JumpAbort` outcome) is unreachable from `matches`. -/
theorem claim_C2 (pattern : List Char) (prog : List Instruction)
    (_hcomp : compile pattern = .ok prog) :
    (∀ (fuel : Nat) (ips : List Nat),
      Vm.init prog fuel = .ok ips → allTerminal prog ips) ∧
    (∀ (fuel : Nat) (ips : List Nat) (c : Char) (r : IterResult)
      (ips' : List Nat), allTerminal prog ips →
      Vm.iterate prog fuel ips c = .ok (r, ips') → allTerminal prog ips') ∧
    (∀ (fuel : Nat) (input : List Char),
      Vm.«matches» prog fuel input ≠ .error .JumpAbort) := by
  refine ⟨?_, ?_, ?_⟩
  · intro fuel ips h
    rw [init_eq_follow_jump] at h
    exact follow_jump_ok_terminal h
  · intro fuel ips c r ips' hall h
    exact iterate_ok_terminal hall h
  · intro fuel input h
    rcases matches_error h with h' | h' <;> exact VmError.noConfusion h'

/-- Witness for C2 at pattern "a", input "b". -/
theorem claim_C2_witness :
    Vm.«matches» [.Char 'a', .Match] 1 ['b'] ≠ .error .JumpAbort :=
  (claim_C2 ['a'] [.Char 'a', .Match] rfl).2.2 1 ['b']

/-- Claim C3: the pattern `(a*)*` is accepted by `compile`, and on the
non-empty input "a" the matcher does not terminate: for every fuel bound the
epsilon-closure expansion in `follow_jump` is still running (`.Loop`),
because the cycle `0 → 4 → 0` is re-expanded forever with no cycle
detection. -/
theorem claim_C3 :
    compile ['(', 'a', '*', ')', '*'] = .ok groupStarProg ∧
    (∀ fuel : Nat, Vm.follow_jump groupStarProg fuel 0 = .error .Loop) ∧
    (∀ fuel : Nat, Vm.«matches» groupStarProg fuel ['a'] = .error .Loop) :=
  ⟨rfl, groupStar_follow_jump,
    fun fuel => groupStar_matches fuel ['a'] (by simp)⟩

/-- Claim C4: `link_or(p1, p2)` is exactly `Split(1, len1+2)`, then `p1`
with every `Jmp`/`Split` target increased by 1, then
`Jmp(len1+len2+2)`, then `p2` with every target increased by `len1+2`. -/
theorem claim_C4 (p1 p2 : List Instruction) :
    Compiler.link_or p1 p2 =
      .Split 1 (p1.length + 2) :: p1.map (Compiler.relink 1)
        ++ [.Jmp (p1.length + p2.length + 2)]
        ++ p2.map (Compiler.relink (p1.length + 2)) :=
  link_or_eq p1 p2

/-- Claim C5: `compile_one` applies a trailing quantifier to the
just-compiled primitive `p` exactly as specified: `?` prefixes
`Split(1, len+1)` (shifting `p` by 1), `*` prefixes `Split(1, len+2)` and
appends `Jmp(0)`, `+` appends `Split(0, len+1)`, and with no quantifier `p`
is unchanged; a literal primitive feeds `[Char c]` into this step. -/
theorem claim_C5 (p : List Instruction) (i : Nat) (rest : List (Nat × Char)) :
    (Compiler.quantify p ((i, '?') :: rest) =
      (.Split 1 (p.length + 1) :: p.map (Compiler.relink 1), rest)) ∧
    (Compiler.quantify p ((i, '*') :: rest) =
      (.Split 1 (p.length + 2) :: p.map (Compiler.relink 1) ++ [.Jmp 0], rest)) ∧
    (Compiler.quantify p ((i, '+') :: rest) =
      (p ++ [.Split 0 (p.length + 1)], rest)) ∧
    (Compiler.quantify p [] = (p, [])) ∧
    (∀ c : Char, c ≠ '?' → c ≠ '*' → c ≠ '+' →
      Compiler.quantify p ((i, c) :: rest) = (p, (i, c) :: rest)) ∧
    (∀ (f : Nat) (c : Char), isMeta c = false →
      Compiler.compile_one (f + 1) ((i, c) :: rest) =
        .ok (Compiler.quantify [.Char c] rest)) := by
  refine ⟨rfl, rfl, rfl, rfl, ?_, ?_⟩
  · intro c h1 h2 h3
    exact quantify_not_quant h1 h2 h3
  · intro f c hc
    obtain ⟨hq, hs, hp, hl, hr, hb⟩ := isMeta_false_elim hc
    simp only [Compiler.compile_one]
    rw [if_neg (by tauto), if_neg hl]

/-- Witness for C5 at `p = [Char a]`, non-quantifier character 'b'. -/
theorem claim_C5_witness :
    Compiler.quantify [.Char 'a'] ((0, 'b') :: []) =
      ([.Char 'a'], (0, 'b') :: []) ∧
    Compiler.compile_one (0 + 1) ((0, 'b') :: []) =
      .ok (Compiler.quantify [.Char 'b'] []) :=
  ⟨(claim_C5 [.Char 'a'] 0 []).2.2.2.2.1 'b' (by decide) (by decide) (by decide),
   (claim_C5 [.Char 'a'] 0 []).2.2.2.2.2 0 'b' (by decide)⟩

/-- Claim C6: for every pattern on which `compile` succeeds, every `Jmp`
target and both `Split` targets of every instruction in the returned
program (with the trailing `Match` appended) are strictly below the
program's length. -/
theorem claim_C6 (pattern : List Char) (prog : List Instruction)
    (h : compile pattern = .ok prog) :
    ∀ ins ∈ prog, targetLt prog.length ins :=
  compile_targets_aux h

/-- Witness for C6 at the pattern "a*". -/
theorem claim_C6_witness : targetLt 4 (Instruction.Split 1 3) :=
  claim_C6 ['a', '*'] [.Split 1 3, .Char 'a', .Jmp 0, .Match] rfl
    (.Split 1 3) (by decide)

/-- Claim C7: for every pattern that compiles successfully, `matches` on the
empty input returns false (zero start offsets are tried); in particular
`compile("a*")` yields a program that matches "aaa" but not "". -/
theorem claim_C7 :
    (∀ (pattern : List Char) (prog : List Instruction) (fuel : Nat),
      compile pattern = .ok prog → Vm.«matches» prog fuel [] = .ok false) ∧
    compile ['a', '*'] = .ok [.Split 1 3, .Char 'a', .Jmp 0, .Match] ∧
    Vm.«matches» [.Split 1 3, .Char 'a', .Jmp 0, .Match] 9 ['a', 'a', 'a'] =
      .ok true ∧
    Vm.«matches» [.Split 1 3, .Char 'a', .Jmp 0, .Match] 9 [] = .ok false := by
  refine ⟨?_, rfl, rfl, rfl⟩
  intro pattern prog fuel _
  rfl

/-- Witness for C7 at the pattern "a". -/
theorem claim_C7_witness : Vm.«matches» [.Char 'a', .Match] 5 [] = .ok false :=
  claim_C7.1 ['a'] [.Char 'a', .Match] 5 rfl

/-- Claim C8: whenever a group's fragment ends without having found the `)`
delimiter, `compile_group` returns exactly the fixed
"Unexpected end of stream." message (no offset) and no program; any
`(`-opened pattern whose remainder has no metacharacters fails this way, and
in particular `compile("(")` does. -/
theorem claim_C8 :
    (∀ (fuel : Nat) (input : List (Nat × Char)) (p : List Instruction)
      (rest : List (Nat × Char)),
      Compiler.compile_fragment_loop fuel (some ')') [] [] input =
        .ok (p, false, rest) →
      Compiler.compile_group (fuel + 1) input = .error UNEXPECTED_EOS) ∧
    (∀ t : List Char, (∀ c ∈ t, isMeta c = false) →
      compile ('(' :: t) = .error UNEXPECTED_EOS) ∧
    compile ['('] = .error "Unexpected end of stream." := by
  refine ⟨?_, ?_, rfl⟩
  · intro fuel input p rest h
    rw [Compiler.compile_group, h]
    rfl
  · intro t hmeta
    exact compile_unterminated hmeta

/-- Witness for C8 at the pattern "(a". -/
theorem claim_C8_witness :
    Compiler.compile_group (13 + 1) (charOffsets 1 ['a']) =
      .error UNEXPECTED_EOS ∧
    compile ['(', 'a'] = .error UNEXPECTED_EOS :=
  ⟨claim_C8.1 13 (charOffsets 1 ['a']) [.Char 'a'] [] rfl,
   claim_C8.2.1 ['a'] (by decide)⟩

/-- Claim C9: whenever `follow_jump` terminates it returns a non-empty list
of addresses all holding `Char` or `Match`; consequently the defensive
fallbacks (pushing 0 in `init`, pushing `addr+1` in `iterate`) never
execute — in particular `init` equals the bare closure of address 0. -/
theorem claim_C9 :
    (∀ (prog : List Instruction) (fuel i : Nat) (l : List Nat),
      Vm.follow_jump prog fuel i = .ok l →
      l ≠ [] ∧ ∀ a ∈ l, ∃ ins, prog[a]? = some ins ∧ terminalInstr ins = true) ∧
    (∀ (prog : List Instruction) (fuel : Nat),
      Vm.init prog fuel = Vm.follow_jump prog fuel 0) := by
  refine ⟨?_, init_eq_follow_jump⟩
  intro prog fuel i l h
  exact ⟨follow_jump_ok_nonempty h, follow_jump_ok_terminal h⟩

/-- Witness for C9 at the one-instruction program `[Match]`. -/
theorem claim_C9_witness :
    ([0] : List Nat) ≠ [] ∧
    (∀ a ∈ ([0] : List Nat),
      ∃ ins, ([Instruction.Match] : List Instruction)[a]? = some ins ∧
        terminalInstr ins = true) :=
  claim_C9.1 [.Match] 1 0 [0] rfl

/-- Claim C10: `compile("")` succeeds and produces the one-instruction
program `[Match]`; the resulting matcher returns true for every non-empty
input and false for the empty input. -/
theorem claim_C10 :
    compile [] = .ok [.Match] ∧
    (∀ (fuel : Nat) (c : Char) (cs : List Char), 1 ≤ fuel →
      Vm.«matches» [.Match] fuel (c :: cs) = .ok true) ∧
    (∀ fuel : Nat, Vm.«matches» [.Match] fuel [] = .ok false) := by
  refine ⟨rfl, ?_, fun fuel => rfl⟩
  intro fuel c cs hfuel
  have hini : Vm.init [Instruction.Match] fuel = .ok [0] := by
    rw [init_eq_follow_jump]
    exact follow_jump_lit (t := []) hfuel (Nat.le_refl 0)
  rw [Vm.«matches»]
  show Vm.matchesAux [Instruction.Match] fuel (cs.length + 1) (c :: cs) = .ok true
  rw [Vm.matchesAux, hini]
  rfl

/-- Witness for C10 at the input "x". -/
theorem claim_C10_witness : Vm.«matches» [.Match] 1 ['x'] = .ok true :=
  claim_C10.2.1 1 'x' [] (by decide)

end RustRe
